/-
Verification of the lambda-functions repository against its specification.

The development shallowly embeds:
  * `src/code_generator/dictionary.py` and `src/authorizer/dictionary.py`
    (the word codec: `DICTIONARY`, `encode_bits_to_words`, `decode_words_to_bits`);
  * `src/authorizer/lambda_function.py` (`verify_hmac_signature`,
    `get_code_metadata`, `validate_code`) with the DynamoDB store threaded
    explicitly and boto3 calls recorded as an operation trace;
  * `src/code_generator/lambda_function.py` (`generate_code`, `sign_with_hmac`,
    `sign_with_kms`, `store_code_metadata`, the handler's generation flow);
  * the word-encoded, time-windowed MAC core (CodeGenerator / CodeValidator),
    whose implementation is not under src/ (only its dictionary helpers are);
    those definitions are modelled from the specification and are marked
    `Modelled from the spec:` in their doc comments.

Python strings of bits are represented as `List Char`, word tokens as `String`,
machine integers as `Nat`/`Int` (no overflow is involved: Python integers are
unbounded), raising `ValueError`/`ClientError`/`AttributeError` as `Except`.
-/
import Mathlib

set_option autoImplicit false
set_option maxRecDepth 10000

namespace LambdaFunctions

/-! ## Word codec: embedding of `src/code_generator/dictionary.py`
(`src/authorizer/dictionary.py` is an identical copy of the decode half). -/

/-- A decimal digit character, `chr(48 + d)`. -/
def digitCh (d : Nat) : Char := Char.ofNat (48 + d)

/-- The word for index `i`: models the Python f-string `f"word{i:04d}"`
(zero-padded 4-digit decimal; exact for every `i < 10000`, and `DICTIONARY`
only instantiates it at `i < 1024`). -/
def wordFor (i : Nat) : String :=
  String.mk ('w' :: 'o' :: 'r' :: 'd' ::
    [digitCh (i / 1000 % 10), digitCh (i / 100 % 10), digitCh (i / 10 % 10), digitCh (i % 10)])

/-- `DICTIONARY = [f"word{i:04d}" for i in range(1024)]`. -/
def DICTIONARY : List String := (List.range 1024).map wordFor

/-- Python exception values raised by the embedded code.  The dictionary module
raises `ValueError` with three distinct message shapes; the constructors record
which `raise` site fired, and the carried string is the exact message. -/
inductive PyErr where
  | formatError (msg : String)   -- `ValueError` from the explicit length checks
  | unknownWord (msg : String)   -- `ValueError` re-raised as "Unknown word: ..."
  | valueError (msg : String)    -- `ValueError` out of `int(s, 2)`
  | indexError                   -- `IndexError` from `DICTIONARY[index]`
  | rangeError (msg : String)    -- spec `RangeError` (keyId out of [0,1023])
  | macServiceError              -- spec `MacServiceError`
deriving DecidableEq, Repr

/-- Helper for `int(s, 2)`: left-to-right accumulation over binary digits,
`none` on a character that is not `'0'`/`'1'`. -/
def parseBinAux : Nat → List Char → Option Nat
  | acc, [] => some acc
  | acc, c :: cs =>
      if c = '0' then parseBinAux (2 * acc) cs
      else if c = '1' then parseBinAux (2 * acc + 1) cs
      else none

/-- Models `int(s, 2)` on the strings the codec feeds it (binary-digit
strings; the empty string and non-binary characters raise `ValueError`). -/
def parseBin (l : List Char) : Except PyErr Nat :=
  match l with
  | [] => .error (.valueError "invalid literal for int() with base 2")
  | _ =>
    match parseBinAux 0 l with
    | some n => .ok n
    | none => .error (.valueError "invalid literal for int() with base 2")

/-- Models the Python format `f"{n:0{w}b}"`: the `w` binary digits of `n`,
most significant first (exact for `n < 2 ^ w`, which holds at every call
site: indices come from 10 binary digits or from `DICTIONARY`). -/
def toBinW : Nat → Nat → List Char
  | 0, _ => []
  | w + 1, n => toBinW w (n / 2) ++ [if n % 2 = 1 then '1' else '0']

/-- The loop body of `encode_bits_to_words`: `for i in range(0, 100, 10)`
walks the list of slice start offsets, parses each 10-character slice and maps
it through `DICTIONARY` (a Python `IndexError` is unreachable because each
slice has 10 binary digits). -/
def encodeChunks (bits : List Char) : List Nat → Except PyErr (List String)
  | [] => .ok []
  | i :: is => do
      let index ← parseBin ((bits.drop i).take 10)
      match DICTIONARY[index]? with
      | some w => do
          let rest ← encodeChunks bits is
          .ok (w :: rest)
      | none => .error .indexError

/-- `encode_bits_to_words` from `src/code_generator/dictionary.py`. -/
def encode_bits_to_words (bits_100 : List Char) : Except PyErr (List String) :=
  if bits_100.length ≠ 100 then
    .error (.formatError ("Expected 100 bits, got " ++ toString bits_100.length))
  else
    encodeChunks bits_100 ((List.range 10).map (fun k => 10 * k))

/-- Models Python `list.index` (`DICTIONARY.index(word)`): index of the first
occurrence, `none` when absent (the code turns that `ValueError` into
"Unknown word"). -/
def listIndex : List String → String → Option Nat
  | [], _ => none
  | x :: xs, w => if x = w then some 0 else (listIndex xs w).map (· + 1)

/-- The loop body of `decode_words_to_bits`: each word is looked up in
`DICTIONARY` and rendered as its zero-padded 10-bit binary string. -/
def decodeWords : List String → Except PyErr (List (List Char))
  | [] => .ok []
  | w :: ws =>
      match listIndex DICTIONARY w with
      | some index => do
          let rest ← decodeWords ws
          .ok (toBinW 10 index :: rest)
      | none => .error (.unknownWord ("Unknown word: " ++ w))

/-- `decode_words_to_bits` from `src/code_generator/dictionary.py` (identical
in `src/authorizer/dictionary.py`): `"".join` of the per-word bit strings. -/
def decode_words_to_bits (words : List String) : Except PyErr (List Char) :=
  if words.length ≠ 10 then
    .error (.formatError ("Expected 10 words, got " ++ toString words.length))
  else do
    let bits ← decodeWords words
    .ok bits.flatten

/-! ## The word-encoded, time-windowed MAC core

The spec's CodeGenerator / CodeValidator (spec sections 4.3 and 4.4) are code
of this repository that is not under src/: only their helper declarations are
(`dictionary.py` sits unused in both lambda directories, and the presign
lambda consumes the `x-authorization-words` header and a keyId principal).
The definitions below are modelled from the specification. -/

/-- Modelled from the spec: the `AuthMessage`
`"{10-bit KeyId binary}|{date}|{hours-since-epoch}"` (spec section 3).  The
three components are kept as fields; the `"|"`-separated serialization fed to
the MAC oracle is injective on them for the `"YYYY-MM-DD"` dates the spec
prescribes, so message equality is field-wise equality. -/
structure AuthMessage where
  keyBits : List Char
  date : String
  hours : Int
deriving DecidableEq, Repr

/-- Modelled from the spec: the 90-bit `MacTag` — first 12 bytes of the
256-bit MAC, each byte expanded to 8 binary digits, concatenated and
truncated to the first 90 characters (spec section 3). -/
def macTag (mac : List Nat) : List Char :=
  (((mac.take 12).map (fun b => toBinW 8 b)).flatten).take 90

/-- Modelled from the spec: `CodeCodec.pack` — keyId rendered as 10-bit
zero-padded binary and concatenated with the mac tag; `RangeError` when
keyId is outside [0,1023] (spec section 4.2; negative values cannot arise,
the key id is a natural number). -/
def pack (keyId : Nat) (mTag : List Char) : Except PyErr (List Char) :=
  if keyId > 1023 then .error (.rangeError "keyId outside [0,1023]")
  else .ok (toBinW 10 keyId ++ mTag)

/-- Modelled from the spec: `CodeCodec.unpack` — first 10 bits parsed as an
integer, remaining bits returned verbatim (spec section 4.2). -/
def unpack (bits : List Char) : Except PyErr (Nat × List Char) := do
  let keyId ← parseBin (bits.take 10)
  .ok (keyId, bits.drop 10)

/-- Modelled from the spec: `" ".join(words)` — the textual AuthCode is the
space-joined word sequence (spec section 4.3 step 6). -/
def joinSpace : List (List Char) → List Char
  | [] => []
  | [w] => w
  | w :: x :: xs => w ++ ' ' :: joinSpace (x :: xs)

/-- Modelled from the spec: `CodeGenerator.generate` (spec section 4.3).
The MAC oracle is an external collaborator consumed as a function parameter
returning the MAC's bytes; a service failure or an empty/undersized tag is
`MacServiceError` (the undersized check models both, the oracle being
otherwise opaque). -/
def generate (oracle : AuthMessage → List Nat) (keyId : Nat) (date : String)
    (hours : Int) : Except PyErr (List Char) :=
  if keyId > 1023 then .error (.rangeError "keyId outside [0,1023]")
  else if (oracle ⟨toBinW 10 keyId, date, hours⟩).length < 12 then
    .error .macServiceError
  else do
    let bits ← pack keyId (macTag (oracle ⟨toBinW 10 keyId, date, hours⟩))
    let words ← encode_bits_to_words bits
    .ok (joinSpace (words.map String.data))

/-- Modelled from the spec: splitting the submitted string on whitespace
(spec section 4.4 step 1, Python `str.split()`): split on blanks, empty
fragments dropped by the `filter` at the use site. -/
def splitOnSpace : List Char → List (List Char)
  | [] => [[]]
  | c :: cs =>
      if c = ' ' then [] :: splitOnSpace cs
      else
        match splitOnSpace cs with
        | w :: ws => (c :: w) :: ws
        | [] => [[c]]

/-- Modelled from the spec: one probe of the sliding-window search (spec
section 4.4 steps 4a–4d): reconstruct the candidate message from the decoded
key id, the current date and `currentHours - offset`, query the MAC oracle,
truncate identically to generation, and compare with the claimed tag as
fixed-length strings. -/
def probeMatch (oracle : AuthMessage → List Nat) (keyBits : List Char)
    (currentDate : String) (currentHours : Int) (claimedTag : List Char)
    (offset : Int) : Bool :=
  macTag (oracle ⟨keyBits, currentDate, currentHours - offset⟩) = claimedTag

/-- Modelled from the spec: the plain loop with early exit (spec sections 4.4
step 4e and 9): probe each offset in order, stop at the first match.  The
second component counts the MAC-oracle calls issued. -/
def searchLoop (p : Int → Bool) : List Int → Option Int × Nat
  | [] => (none, 0)
  | o :: os =>
      if p o then (some o, 1)
      else
        let r := searchLoop p os
        (r.1, r.2 + 1)

/-- Modelled from the spec: the inclusive integer sequence
`[-toleranceHours, ttlHours]` in ascending order (spec section 4.4 step 4). -/
def windowOffsets (ttlHours toleranceHours : Nat) : List Int :=
  (List.range (ttlHours + toleranceHours + 1)).map
    (fun (k : Nat) => -(toleranceHours : Int) + (k : Int))

/-- Rejection reasons of the spec validator (spec sections 4.4 and 7). -/
inductive VReason where
  | badFormat
  | badSignature
  | expired
deriving DecidableEq, Repr

/-- Result of the spec validator: the `(valid, keyId | absent,
ageHours | absent, reason)` tuple of spec section 4.4, extended with the
number of MAC-oracle calls the validation issued (its only blocking
operation, spec section 5). -/
structure VOut where
  valid : Bool
  keyId : Option Nat
  ageHours : Option Int
  reason : Option VReason
  oracleCalls : Nat
deriving DecidableEq, Repr

/-- Modelled from the spec: `CodeValidator.validate` (spec section 4.4).
Steps: split into exactly 10 tokens else `BadFormat`; `WordCodec.decode` and
`CodeCodec.unpack` (any decode error is `BadFormat`); probe the offsets
`[-toleranceHours, ttlHours]` ascending; no match is `BadSignature`, a match
beyond `ttlHours` is `Expired`, otherwise valid with key id and age.  The
date used for every candidate message is the current date (the day-rollover
branch is unreachable, spec sections 4.4 step 4b and 9). -/
def validate (oracle : AuthMessage → List Nat) (ttlHours toleranceHours : Nat)
    (text : List Char) (currentDate : String) (currentHours : Int) : VOut :=
  if ((splitOnSpace text).filter (fun w => !w.isEmpty)).length ≠ 10 then
    ⟨false, none, none, some .badFormat, 0⟩
  else
    match decode_words_to_bits
        (((splitOnSpace text).filter (fun w => !w.isEmpty)).map String.mk) with
    | .error _ => ⟨false, none, none, some .badFormat, 0⟩
    | .ok bits =>
      match unpack bits with
      | .error _ => ⟨false, none, none, some .badFormat, 0⟩
      | .ok (keyId, claimedTag) =>
        match searchLoop
            (probeMatch oracle (toBinW 10 keyId) currentDate currentHours claimedTag)
            (windowOffsets ttlHours toleranceHours) with
        | (none, calls) => ⟨false, none, none, some .badSignature, calls⟩
        | (some matchedOffset, calls) =>
          if matchedOffset > (ttlHours : Int) then
            ⟨false, none, some matchedOffset, some .expired, calls⟩
          else
            ⟨true, some keyId, some matchedOffset, none, calls⟩

/-! ## Embedding of `src/authorizer/lambda_function.py`

The DynamoDB-backed authorizer.  Environment configuration and the AWS
clients are threaded as explicit parameters; every boto3 table call is
recorded in an operation trace so that store effects are observable. -/

/-- The DynamoDB item for a code, restricted to the attributes the lambdas
read or write.  `dict.get` of a possibly missing attribute is an `Option`. -/
structure CodeMetadata where
  state : Option String
  expiresAt : Option Int
  signature : Option String
  nonce : Option String
  createdAt : Option Int
  ttlAttr : Option Int
deriving DecidableEq, Repr

/-- A DynamoDB table operation, as issued through boto3. -/
inductive DbOp where
  | get (code : String)
  | put (code : String) (item : CodeMetadata)
deriving DecidableEq, Repr

/-- The DynamoDB table state: the stored records, plus flags modelling
boto3 `ClientError` on reads/writes (service unavailable etc.). -/
structure DbState where
  records : String → Option CodeMetadata
  failRead : Bool
  failWrite : Bool

/-- Python truthiness of an optional string environment variable:
`not x` is true for both an unset variable and an empty string. -/
def truthy : Option String → Bool
  | none => false
  | some s => !(s = "")

/-- Unhandled Python exceptions escaping the embedded functions. -/
inductive PyExn where
  | attributeError
deriving DecidableEq, Repr

/-- The authorizer's configuration and cryptographic collaborators:
`USE_KMS`, `HMAC_SECRET`, `KMS_KEY_ID`, plus `hmacHex secret message`
(`hmac.new(secret, message, sha256).hexdigest()`) and
`kmsVerifyOk key code signature` (whether `kms_client.verify` succeeds;
`verify_kms_signature` turns every failure into `False`). -/
structure AuthEnv where
  useKms : Bool
  hmacSecret : Option String
  kmsKeyId : Option String
  hmacHex : String → String → String
  kmsVerifyOk : String → String → String → Bool

/-- `verify_hmac_signature`: recompute the HMAC hexdigest of the code and
compare (`hmac.compare_digest` is equality).  A `None` secret raises
`AttributeError` at `secret.encode('utf-8')`. -/
def verify_hmac_signature (env : AuthEnv) (code sigText : String)
    (secret : Option String) : Except PyExn Bool :=
  match secret with
  | none => .error .attributeError
  | some s => .ok (env.hmacHex s code = sigText)

/-- `get_code_metadata`: `table.get_item(Key={'code': code})` — the record
when present, `None` when absent, re-raised `ClientError` on failure; the
issued table call is recorded in the trace. -/
def get_code_metadata (db : DbState) (code : String) :
    Except Unit (Option CodeMetadata) × List DbOp :=
  if db.failRead then (.error (), [.get code])
  else (.ok (db.records code), [.get code])

/-- `validate_code` from `src/authorizer/lambda_function.py`: configuration
check, DynamoDB lookup (`ClientError` caught as "Database error"), state
check, expiry check, stored-signature comparison, then cryptographic
verification via KMS when `USE_KMS and KMS_KEY_ID` and HMAC otherwise.
Returns the `(is_valid, error_message)` tuple, or the escaping exception;
alongside the trace of store operations it performed. -/
def validate_code (env : AuthEnv) (db : DbState) (code sigText : String)
    (now : Int) : Except PyExn (Bool × Option String) × List DbOp :=
  if ¬env.useKms ∧ ¬truthy env.hmacSecret then
    (.ok (false, some "Configuration error"), [])
  else
    match get_code_metadata db code with
    | (.error _, ops) => (.ok (false, some "Database error"), ops)
    | (.ok none, ops) => (.ok (false, some "Invalid code"), ops)
    | (.ok (some metadata), ops) =>
      if metadata.state ≠ some "active" then
        (.ok (false, some "Code is not active"), ops)
      else if now > metadata.expiresAt.getD 0 then
        (.ok (false, some "Code has expired"), ops)
      else if metadata.signature ≠ some sigText then
        (.ok (false, some "Invalid signature"), ops)
      else
        let verdict :=
          if env.useKms ∧ truthy env.kmsKeyId then
            .ok (env.kmsVerifyOk (env.kmsKeyId.getD "") code sigText)
          else
            verify_hmac_signature env code sigText env.hmacSecret
        match verdict with
        | .error e => (.error e, ops)
        | .ok true => (.ok (true, none), ops)
        | .ok false => (.ok (false, some "Signature verification failed"), ops)

/-- Replay a trace of table operations against a store: a `get` changes
nothing, a `put` inserts its item under its key. -/
def dbApply (db : DbState) : List DbOp → DbState
  | [] => db
  | .get _ :: ops => dbApply db ops
  | .put code item :: ops =>
      dbApply { db with records := fun k => if k = code then some item else db.records k } ops

/-! ## Embedding of `src/code_generator/lambda_function.py` -/

/-- The generator's configuration and collaborators: `USE_KMS`,
`HMAC_SECRET`, `KMS_KEY_ID`, `CODE_EXPIRY_MINUTES`, the HMAC hexdigest,
`kmsSign message` (`kms_client.sign`, `ClientError` on failure) and the
SHA-256 hexdigest used by `generate_code`. -/
structure GenEnv where
  useKms : Bool
  hmacSecret : Option String
  kmsKeyId : Option String
  expiryMinutes : Int
  hmacHex : String → String → String
  kmsSign : String → Except Unit String
  sha256hex : String → String

/-- `sign_with_hmac`: the HMAC-SHA256 hexdigest of the code. -/
def sign_with_hmac (env : GenEnv) (code secret : String) : String :=
  env.hmacHex secret code

/-- `sign_with_kms`: `kms_client.sign`, re-raising `ClientError`. -/
def sign_with_kms (env : GenEnv) (code : String) : Except Unit String :=
  env.kmsSign code

/-- `generate_code`: `sha256(f"{nonce}:{timestamp}").hexdigest()[:32]`. -/
def generate_code (env : GenEnv) (nonce : String) (timestamp : Int) : String :=
  (env.sha256hex (nonce ++ ":" ++ toString timestamp)).take 32

/-- `store_code_metadata`: `put_item` of the full item with
`ConditionExpression='attribute_not_exists(code)'` — a `ClientError` is
raised (and no write lands) when the write fails or the key already exists;
on success the performed write is recorded in the trace.  The item's
`created_at` is a fresh `get_current_timestamp()` read, taken at the same
wall-clock instant as the handler's `timestamp`. -/
def store_code_metadata (db : DbState) (code sigText : String)
    (expiresAt : Int) (nonce : String) (createdAt : Int) :
    Except Unit Unit × List DbOp :=
  if db.failWrite ∨ (db.records code).isSome then (.error (), [])
  else
    (.ok (), [.put code
      { state := some "active", expiresAt := some expiresAt,
        signature := some sigText, nonce := some nonce,
        createdAt := some createdAt, ttlAttr := some expiresAt }])

/-- The signing step's failure modes inside the generation handler. -/
inductive SignFailure where
  | clientError      -- `ClientError` out of `kms_client.sign`
  | attributeError   -- `sign_with_hmac` with `HMAC_SECRET = None`
deriving DecidableEq, Repr

/-- An API-Gateway response body of the generation handler: either the
success payload or the error object. -/
inductive GenBody where
  | payload (code sigText : String) (expiresAt expiresInMinutes : Int)
      (signingMethod : String)
  | err (msg : String)
deriving DecidableEq, Repr

/-- An API-Gateway response: status code and JSON body. -/
structure GenResponse where
  status : Nat
  body : GenBody
deriving DecidableEq, Repr

/-- The generation flow of `lambda_handler` in
`src/code_generator/lambda_function.py` (HTTP parsing aside, which the spec
excludes as transport): configuration check, code construction from the
nonce and timestamp, signing (KMS when `USE_KMS and KMS_KEY_ID`, HMAC
otherwise), metadata store, success payload.  A `ClientError` yields the
500 "Failed to generate code" response, any other exception the 500
"Internal server error" response; the second component is the trace of
store operations performed. -/
def generator_handler (env : GenEnv) (db : DbState) (nonce : String)
    (timestamp : Int) : GenResponse × List DbOp :=
  if ¬env.useKms ∧ ¬truthy env.hmacSecret then
    (⟨500, .err "Configuration error: signing method not properly configured"⟩, [])
  else
    let code := generate_code env nonce timestamp
    let expiresAt := timestamp + env.expiryMinutes * 60
    let signed : Except SignFailure (String × String) :=
      if env.useKms ∧ truthy env.kmsKeyId then
        match sign_with_kms env code with
        | .ok s => .ok (s, "KMS")
        | .error _ => .error .clientError
      else
        match env.hmacSecret with
        | none => .error .attributeError
        | some secret => .ok (sign_with_hmac env code secret, "HMAC")
    match signed with
    | .error .clientError => (⟨500, .err "Failed to generate code"⟩, [])
    | .error .attributeError => (⟨500, .err "Internal server error"⟩, [])
    | .ok (sigText, method) =>
      match store_code_metadata db code sigText expiresAt nonce timestamp with
      | (.error _, ops) => (⟨500, .err "Failed to generate code"⟩, ops)
      | (.ok _, ops) =>
        (⟨200, .payload code sigText expiresAt env.expiryMinutes method⟩, ops)

/-! ## Decidability helper and concrete test fixtures -/

instance {ε α : Type} [DecidableEq ε] [DecidableEq α] : DecidableEq (Except ε α) :=
  fun x y =>
    match x, y with
    | .ok a, .ok b =>
        if h : a = b then .isTrue (by rw [h])
        else .isFalse (fun hh => h (by injection hh))
    | .error a, .error b =>
        if h : a = b then .isTrue (by rw [h])
        else .isFalse (fun hh => h (by injection hh))
    | .ok _, .error _ => .isFalse (fun hh => Except.noConfusion hh)
    | .error _, .ok _ => .isFalse (fun hh => Except.noConfusion hh)

/-- A deterministic test oracle: the all-zero MAC for the message of key id 5
issued at hour 100 of date "2024-01-01", an all-ones MAC otherwise; the two
truncated tags differ, so only the issuing message matches. -/
def oracleW : AuthMessage → List Nat := fun m =>
  if m = ⟨toBinW 10 5, "2024-01-01", 100⟩ then List.replicate 12 0
  else List.replicate 12 255

/-- The code `generate oracleW 5 "2024-01-01" 100` produces: key id 5 and the
all-zero tag. -/
def codeW : List Char :=
  ("word0005 word0000 word0000 word0000 word0000 word0000 word0000 word0000" ++
    " word0000 word0000").data

/-- Authorizer fixture: HMAC mode with secret "k", modelling the hexdigest
abstractly as concatenation. -/
def envW : AuthEnv :=
  { useKms := false, hmacSecret := some "k", kmsKeyId := none,
    hmacHex := fun s m => s ++ m, kmsVerifyOk := fun _ _ _ => false }

/-- Authorizer fixture: the misconfiguration `USE_KMS=true` with neither
`KMS_KEY_ID` nor `HMAC_SECRET` set. -/
def envCrashW : AuthEnv :=
  { useKms := true, hmacSecret := none, kmsKeyId := none,
    hmacHex := fun s m => s ++ m, kmsVerifyOk := fun _ _ _ => false }

/-- A stored record for code "c": active, expiring at 100, with the
signature `envW.hmacHex "k" "c" = "kc"`. -/
def mdW : CodeMetadata :=
  { state := some "active", expiresAt := some 100, signature := some "kc",
    nonce := none, createdAt := none, ttlAttr := none }

/-- An empty, healthy table. -/
def dbEmptyW : DbState :=
  { records := fun _ => none, failRead := false, failWrite := false }

/-- A healthy table holding `mdW` under code "c". -/
def dbActiveW : DbState :=
  { records := fun c => if c = "c" then some mdW else none,
    failRead := false, failWrite := false }

/-- Generator fixture: KMS mode whose signing service always fails. -/
def genEnvW : GenEnv :=
  { useKms := true, hmacSecret := none, kmsKeyId := some "kid",
    expiryMinutes := 60, hmacHex := fun s m => s ++ m,
    kmsSign := fun _ => .error (), sha256hex := fun s => s ++ s }

/-- Like `dbActiveW` but with an extra record under another key: it agrees
with `dbActiveW` on the record for code "c". -/
def dbActive2W : DbState :=
  { records := fun c => if c = "c" then some mdW else if c = "d" then some mdW else none,
    failRead := false, failWrite := false }

/-- The 100 bits decoded from ten copies of "word0003". -/
def bitsC8W : List Char :=
  ("0000000011000000001100000000110000000011000000001100000000110000000011" ++
    "000000001100000000110000000011").data

/-! ## Lemmas about the bit/word codec -/

theorem parseBinAux_append (l1 l2 : List Char) :
    ∀ acc, parseBinAux acc (l1 ++ l2) =
      (parseBinAux acc l1).bind (fun a => parseBinAux a l2) := by
  induction l1 with
  | nil => intro acc; simp [parseBinAux]
  | cons c cs ih =>
      intro acc
      by_cases h0 : c = '0'
      · simp [parseBinAux, h0, ih]
      · by_cases h1 : c = '1'
        · simp [parseBinAux, h0, h1, ih]
        · simp [parseBinAux, h0, h1]

theorem toBinW_length : ∀ (w n : Nat), (toBinW w n).length = w := by
  intro w
  induction w with
  | zero => intro n; rfl
  | succ w ih => intro n; simp [toBinW, ih]

theorem toBinW_bin : ∀ (w n : Nat), ∀ c ∈ toBinW w n, c = '0' ∨ c = '1' := by
  intro w
  induction w with
  | zero => intro n c hc; simp [toBinW] at hc
  | succ w ih =>
      intro n c hc
      simp only [toBinW, List.mem_append, List.mem_singleton] at hc
      rcases hc with hc | hc
      · exact ih _ c hc
      · subst hc
        by_cases h : n % 2 = 1 <;> simp [h]

theorem parse_toBinW : ∀ (w acc n : Nat), n < 2 ^ w →
    parseBinAux acc (toBinW w n) = some (acc * 2 ^ w + n) := by
  intro w
  induction w with
  | zero =>
      intro acc n hn
      simp only [pow_zero] at hn ⊢
      have : n = 0 := by omega
      subst this
      simp [toBinW, parseBinAux]
  | succ w ih =>
      intro acc n hn
      have hdiv : n / 2 < 2 ^ w := by
        have hpow : (2 : Nat) ^ (w + 1) = 2 ^ w * 2 := pow_succ 2 w
        omega
      have key : acc * 2 ^ (w + 1) + n = 2 * (acc * 2 ^ w + n / 2) + n % 2 := by
        conv_lhs => rw [pow_succ, ← Nat.div_add_mod n 2]
        ring
      rw [toBinW, parseBinAux_append, ih acc (n / 2) hdiv]
      rcases Nat.mod_two_eq_zero_or_one n with h2 | h2
      · rw [key, h2]
        simp [parseBinAux]
      · rw [key, h2]
        simp [parseBinAux]

theorem binChunk_parse : ∀ (l : List Char), (∀ c ∈ l, c = '0' ∨ c = '1') →
    ∃ n, parseBinAux 0 l = some n ∧ n < 2 ^ l.length ∧ toBinW l.length n = l := by
  intro l
  induction l using List.reverseRecOn with
  | nil => intro _; exact ⟨0, rfl, by norm_num, rfl⟩
  | append_singleton l c ih =>
      intro hbin
      have hl : ∀ x ∈ l, x = '0' ∨ x = '1' := fun x hx => hbin x (by simp [hx])
      have hc : c = '0' ∨ c = '1' := hbin c (by simp)
      obtain ⟨n, hp, hlt, htb⟩ := ih hl
      rw [parseBinAux_append, hp]
      rcases hc with hc | hc
      · subst hc
        refine ⟨2 * n, ?_, ?_, ?_⟩
        · simp [parseBinAux]
        · simp only [List.length_append, List.length_singleton]
          have : (2 : Nat) ^ (l.length + 1) = 2 ^ l.length * 2 := pow_succ 2 l.length
          omega
        · have hd : 2 * n / 2 = n := by omega
          have hm : ¬(2 * n % 2 = 1) := by omega
          simp [List.length_append, toBinW, hd, hm, htb]
      · subst hc
        refine ⟨2 * n + 1, ?_, ?_, ?_⟩
        · simp [parseBinAux]
        · simp only [List.length_append, List.length_singleton]
          have : (2 : Nat) ^ (l.length + 1) = 2 ^ l.length * 2 := pow_succ 2 l.length
          omega
        · have hd : (2 * n + 1) / 2 = n := by omega
          have hm : (2 * n + 1) % 2 = 1 := by omega
          simp [List.length_append, toBinW, hd, hm, htb]

theorem parseBin_ok (l : List Char) (n : Nat) (hne : l ≠ [])
    (hp : parseBinAux 0 l = some n) : parseBin l = .ok n := by
  cases l with
  | nil => exact absurd rfl hne
  | cons c cs => simp [parseBin, hp]

theorem digitCh_inj : ∀ a < 10, ∀ b < 10, digitCh a = digitCh b → a = b := by decide

theorem digitCh_ne_space : ∀ d < 10, ¬digitCh d = ' ' := by decide

theorem wordFor_inj (a b : Nat) (ha : a < 10000) (hb : b < 10000)
    (h : wordFor a = wordFor b) : a = b := by
  have hdata : (wordFor a).data = (wordFor b).data := by rw [h]
  simp only [wordFor] at hdata
  simp only [List.cons.injEq, and_true] at hdata
  obtain ⟨-, -, -, -, e1, e2, e3, e4⟩ := hdata
  have d1 := digitCh_inj _ (Nat.mod_lt _ (by norm_num)) _ (Nat.mod_lt _ (by norm_num)) e1
  have d2 := digitCh_inj _ (Nat.mod_lt _ (by norm_num)) _ (Nat.mod_lt _ (by norm_num)) e2
  have d3 := digitCh_inj _ (Nat.mod_lt _ (by norm_num)) _ (Nat.mod_lt _ (by norm_num)) e3
  have d4 := digitCh_inj _ (Nat.mod_lt _ (by norm_num)) _ (Nat.mod_lt _ (by norm_num)) e4
  omega

theorem dict_get (i : Nat) (hi : i < 1024) : DICTIONARY[i]? = some (wordFor i) := by
  simp [DICTIONARY, List.getElem?_map, List.getElem?_range hi]

theorem wordFor_ne_nil (i : Nat) : (wordFor i).data ≠ [] := by simp [wordFor]

theorem wordFor_no_space (i : Nat) : ' ' ∉ (wordFor i).data := by
  intro hmem
  simp only [wordFor, List.mem_cons, List.not_mem_nil, or_false] at hmem
  rcases hmem with h | h | h | h | h | h | h | h
  all_goals first
    | exact absurd h (by decide)
    | exact digitCh_ne_space _ (Nat.mod_lt _ (by norm_num)) h.symm

theorem listIndex_map_range :
    ∀ (N : Nat) (f : Nat → String), (∀ a b, a < N → b < N → f a = f b → a = b) →
      ∀ i, i < N → listIndex ((List.range N).map f) (f i) = some i := by
  intro N
  induction N with
  | zero => intro f _ i hi; omega
  | succ n ih =>
      intro f hinj i hi
      rw [List.range_succ_eq_map, List.map_cons, List.map_map]
      cases i with
      | zero => simp [listIndex]
      | succ j =>
          have hne : f 0 ≠ f (j + 1) := by
            intro hcontra
            have := hinj 0 (j + 1) (by omega) (by omega) hcontra
            omega
          have hj : j < n := by omega
          have hinj2 : ∀ a b, a < n → b < n →
              (f ∘ Nat.succ) a = (f ∘ Nat.succ) b → a = b := by
            intro a b haa hbb hfe
            have := hinj (a + 1) (b + 1) (by omega) (by omega) hfe
            omega
          have hrec := ih (f ∘ Nat.succ) hinj2 j hj
          simp only [listIndex, hne, if_false]
          have : f (j + 1) = (f ∘ Nat.succ) j := rfl
          rw [this, hrec]
          rfl

theorem listIndex_some : ∀ (l : List String) (w : String) (i : Nat),
    listIndex l w = some i → l[i]? = some w := by
  intro l
  induction l with
  | nil => intro w i h; simp [listIndex] at h
  | cons x xs ih =>
      intro w i h
      by_cases hx : x = w
      · simp only [listIndex, hx, if_true] at h
        cases h
        simp [hx]
      · simp only [listIndex, hx, if_false, Option.map_eq_some'] at h
        obtain ⟨j, hj, rfl⟩ := h
        simpa using ih w j hj

theorem listIndex_mem : ∀ (l : List String) (w : String), w ∈ l →
    ∃ i, listIndex l w = some i := by
  intro l
  induction l with
  | nil => intro w h; simp at h
  | cons x xs ih =>
      intro w h
      by_cases hx : x = w
      · exact ⟨0, by simp [listIndex, hx]⟩
      · have hw : w ∈ xs := by
          rcases List.mem_cons.mp h with h1 | h1
          · exact absurd h1.symm hx
          · exact h1
        obtain ⟨j, hj⟩ := ih w hw
        exact ⟨j + 1, by simp [listIndex, hx, hj]⟩

theorem listIndex_eq_none : ∀ (l : List String) (w : String), w ∉ l →
    listIndex l w = none := by
  intro l
  induction l with
  | nil => intro w _; rfl
  | cons x xs ih =>
      intro w h
      have hx : x ≠ w := fun hc => h (by simp [hc])
      have hxs : w ∉ xs := fun hc => h (by simp [hc])
      simp [listIndex, hx, ih w hxs]

theorem dict_index_lt (w : String) (i : Nat)
    (h : listIndex DICTIONARY w = some i) : i < 1024 ∧ w = wordFor i := by
  have hget := listIndex_some DICTIONARY w i h
  by_cases hi : i < 1024
  · refine ⟨hi, ?_⟩
    rw [dict_get i hi] at hget
    exact (Option.some.injEq _ _ ▸ hget).symm
  · exfalso
    have hlen : DICTIONARY.length = 1024 := by simp [DICTIONARY]
    have : DICTIONARY[i]? = none := by
      apply List.getElem?_eq_none
      omega
    rw [this] at hget
    exact Option.noConfusion hget

theorem mem_dict (w : String) : w ∈ DICTIONARY ↔ ∃ i, i < 1024 ∧ w = wordFor i := by
  simp only [DICTIONARY, List.mem_map, List.mem_range]
  constructor
  · rintro ⟨i, hi, rfl⟩; exact ⟨i, hi, rfl⟩
  · rintro ⟨i, hi, rfl⟩; exact ⟨i, hi, rfl⟩

theorem except_bind_ok {ε α β : Type} (a : α) (f : α → Except ε β) :
    (Except.ok a >>= f : Except ε β) = f a := rfl

theorem except_bind_error {ε α β : Type} (e : ε) (f : α → Except ε β) :
    (Except.error e >>= f : Except ε β) = .error e := rfl

theorem dict_listIndex (n : Nat) (hn : n < 1024) :
    listIndex DICTIONARY (wordFor n) = some n := by
  apply listIndex_map_range 1024 wordFor
  · intro a b ha hb
    exact wordFor_inj a b (by omega) (by omega)
  · exact hn

theorem flatten_chunks : ∀ (m : Nat) (l : List Char), l.length = 10 * m →
    ((List.range m).map (fun k => (l.drop (10 * k)).take 10)).flatten = l := by
  intro m
  induction m with
  | zero =>
      intro l hl
      have : l = [] := List.length_eq_zero.mp (by omega)
      subst this
      rfl
  | succ m ih =>
      intro l hl
      rw [List.range_succ_eq_map, List.map_cons, List.map_map]
      have hmap : List.map ((fun k => (l.drop (10 * k)).take 10) ∘ Nat.succ) (List.range m)
          = List.map (fun k => (((l.drop 10).drop (10 * k)).take 10)) (List.range m) := by
        apply List.map_congr_left
        intro k _
        simp only [Function.comp_apply]
        have h10 : 10 * Nat.succ k = 10 + 10 * k := by omega
        rw [h10, ← List.drop_drop]
      rw [hmap, List.flatten_cons]
      have hdl : (l.drop 10).length = 10 * m := by
        rw [List.length_drop]
        omega
      rw [ih (l.drop 10) hdl]
      simp

theorem slice_flatten : ∀ (ls : List (List Char)) (k : Nat) (x : List Char),
    (∀ y ∈ ls, y.length = 10) → ls[k]? = some x →
    (ls.flatten.drop (10 * k)).take 10 = x := by
  intro ls
  induction ls with
  | nil => intro k x _ h; simp at h
  | cons y t ih =>
      intro k x hlen hk
      cases k with
      | zero =>
          simp only [List.getElem?_cons_zero, Option.some.injEq] at hk
          subst hk
          have hy : y.length = 10 := hlen y (by simp)
          simp only [Nat.mul_zero, List.drop_zero, List.flatten_cons]
          rw [← hy]
          exact List.take_left y t.flatten
      | succ j =>
          simp only [List.getElem?_cons_succ] at hk
          have hy : y.length = 10 := hlen y (by simp)
          have hdrop : ((y :: t).flatten).drop (10 * (j + 1)) = t.flatten.drop (10 * j) := by
            rw [List.flatten_cons, List.drop_append_eq_append_drop]
            have h1 : y.drop (10 * (j + 1)) = [] := by
              apply List.drop_eq_nil_of_le
              omega
            have h2 : 10 * (j + 1) - y.length = 10 * j := by omega
            rw [h1, h2, List.nil_append]
          rw [hdrop]
          exact ih j x (fun z hz => hlen z (by simp [hz])) hk

theorem encodeChunks_spec : ∀ (idxs ns : List Nat) (bits : List Char),
    idxs.length = ns.length →
    (∀ (j i n : Nat), idxs[j]? = some i → ns[j]? = some n →
        n < 1024 ∧ (bits.drop i).take 10 = toBinW 10 n) →
    encodeChunks bits idxs = .ok (ns.map wordFor) := by
  intro idxs
  induction idxs with
  | nil =>
      intro ns bits hl _
      have : ns = [] := List.length_eq_zero.mp (by simpa using hl.symm)
      subst this
      rfl
  | cons i is ih =>
      intro ns bits hl hjs
      cases ns with
      | nil => simp at hl
      | cons n ns2 =>
          obtain ⟨hn, hsl⟩ := hjs 0 i n (by simp) (by simp)
          have hne : toBinW 10 n ≠ [] := by
            intro hc
            have := toBinW_length 10 n
            rw [hc] at this
            simp at this
          have hp : parseBinAux 0 (toBinW 10 n) = some n := by
            have := parse_toBinW 10 0 n (by norm_num; omega)
            simpa using this
          have hparse : parseBin ((bits.drop i).take 10) = .ok n := by
            rw [hsl]
            exact parseBin_ok _ n hne hp
          have hrest : encodeChunks bits is = .ok (ns2.map wordFor) := by
            apply ih ns2 bits (by simpa using hl)
            intro j i2 n2 hj1 hj2
            exact hjs (j + 1) i2 n2 (by simpa using hj1) (by simpa using hj2)
          have hstep : encodeChunks bits (i :: is) =
              (parseBin ((bits.drop i).take 10) >>= fun index =>
                match DICTIONARY[index]? with
                | some w => encodeChunks bits is >>= fun rest => Except.ok (w :: rest)
                | none => Except.error PyErr.indexError) := rfl
          rw [hstep, hparse, except_bind_ok]
          simp only [dict_get n hn, hrest, except_bind_ok, List.map_cons]

theorem decodeWords_map_range : ∀ (ns : List Nat), (∀ n ∈ ns, n < 1024) →
    decodeWords (ns.map wordFor) = .ok (ns.map (toBinW 10)) := by
  intro ns
  induction ns with
  | nil => intro _; rfl
  | cons n ns2 ih =>
      intro h
      have hn : n < 1024 := h n (by simp)
      have hrest := ih (fun x hx => h x (by simp [hx]))
      simp [decodeWords, dict_listIndex n hn, hrest, except_bind_ok]

theorem round_trip_core (bits : List Char) (hlen : bits.length = 100)
    (hbin : ∀ c ∈ bits, c = '0' ∨ c = '1') :
    ∃ ns : List Nat, ns.length = 10 ∧ (∀ n ∈ ns, n < 1024) ∧
      encode_bits_to_words bits = .ok (ns.map wordFor) ∧
      decode_words_to_bits (ns.map wordFor) = .ok bits := by
  have hslice : ∀ k, k < 10 → ∃ n, parseBinAux 0 ((bits.drop (10 * k)).take 10) = some n ∧
      n < 1024 ∧ toBinW 10 n = (bits.drop (10 * k)).take 10 := by
    intro k hk
    have hslen : ((bits.drop (10 * k)).take 10).length = 10 := by
      rw [List.length_take, List.length_drop]
      omega
    have hsbin : ∀ c ∈ (bits.drop (10 * k)).take 10, c = '0' ∨ c = '1' := by
      intro c hc
      exact hbin c (List.mem_of_mem_drop (List.mem_of_mem_take hc))
    obtain ⟨n, hp, hlt, htb⟩ := binChunk_parse _ hsbin
    rw [hslen] at hlt htb
    exact ⟨n, hp, by norm_num at hlt; omega, htb⟩
  set ns : List Nat :=
    (List.range 10).map (fun k => (parseBinAux 0 ((bits.drop (10 * k)).take 10)).getD 0)
    with hns
  have hget : ∀ k, k < 10 → ∃ n, ns[k]? = some n ∧
      parseBinAux 0 ((bits.drop (10 * k)).take 10) = some n ∧ n < 1024 ∧
      toBinW 10 n = (bits.drop (10 * k)).take 10 := by
    intro k hk
    obtain ⟨n, hp, hlt, htb⟩ := hslice k hk
    refine ⟨n, ?_, hp, hlt, htb⟩
    rw [hns]
    rw [List.getElem?_map, List.getElem?_range hk]
    simp [hp]
  have hnslen : ns.length = 10 := by simp [hns]
  have hmem : ∀ n ∈ ns, n < 1024 := by
    intro n hn
    rw [hns] at hn
    simp only [List.mem_map, List.mem_range] at hn
    obtain ⟨k, hk, hkn⟩ := hn
    obtain ⟨n2, _, hp, hlt, _⟩ := hget k hk
    rw [hp] at hkn
    simp at hkn
    omega
  refine ⟨ns, hnslen, hmem, ?_, ?_⟩
  · rw [encode_bits_to_words, if_neg (by omega)]
    apply encodeChunks_spec _ _ _ (by simp [hnslen])
    intro j i n hj1 hj2
    rw [List.getElem?_map] at hj1
    have hj10 : j < 10 := by
      by_contra hcon
      rw [List.getElem?_eq_none (by simpa using hcon)] at hj1
      simp at hj1
    rw [List.getElem?_range hj10] at hj1
    simp only [Option.map_some', Option.some.injEq] at hj1
    obtain ⟨n2, hn2get, _, _, htb⟩ := hget j hj10
    rw [hn2get] at hj2
    cases hj2
    rw [← hj1]
    exact ⟨hmem _ (by rw [hns]; exact List.mem_map.mpr ⟨j, List.mem_range.mpr hj10, by
      rw [hns] at hn2get
      have := hn2get
      rw [List.getElem?_map, List.getElem?_range hj10] at this
      simpa using this⟩), htb.symm⟩
  · rw [decode_words_to_bits, if_neg (by simp [hnslen])]
    rw [decodeWords_map_range ns hmem]
    rw [except_bind_ok]
    have hfl : (ns.map (toBinW 10)).flatten = bits := by
      rw [hns, List.map_map]
      have hcong : List.map ((toBinW 10) ∘
          (fun k => (parseBinAux 0 ((bits.drop (10 * k)).take 10)).getD 0)) (List.range 10)
          = List.map (fun k => (bits.drop (10 * k)).take 10) (List.range 10) := by
        apply List.map_congr_left
        intro k hk
        have hk10 : k < 10 := List.mem_range.mp hk
        obtain ⟨n, _, hp, _, htb⟩ := hget k hk10
        simp only [Function.comp_apply, hp, Option.getD_some]
        exact htb
      rw [hcong]
      exact flatten_chunks 10 bits (by omega)
    simp [hfl]

theorem decodeWords_ok_of_mem : ∀ (ws : List String), (∀ w ∈ ws, w ∈ DICTIONARY) →
    ∃ ns : List Nat, (∀ n ∈ ns, n < 1024) ∧ ws = ns.map wordFor ∧
      decodeWords ws = .ok (ns.map (toBinW 10)) ∧ ns.length = ws.length := by
  intro ws
  induction ws with
  | nil => intro _; exact ⟨[], by simp, rfl, rfl, rfl⟩
  | cons w ws2 ih =>
      intro h
      obtain ⟨i, hi, rfl⟩ := (mem_dict w).mp (h w (by simp))
      obtain ⟨ns2, hlt2, heq2, hdec2, hlen2⟩ := ih (fun x hx => h x (by simp [hx]))
      refine ⟨i :: ns2, ?_, by simp [heq2], ?_, by simp [hlen2]⟩
      · intro n hn
        rcases List.mem_cons.mp hn with hn | hn
        · omega
        · exact hlt2 n hn
      · simp [decodeWords, dict_listIndex i hi, hdec2, except_bind_ok]

theorem decodeWords_unknown : ∀ (ws : List String), (∃ w ∈ ws, w ∉ DICTIONARY) →
    ∃ w, w ∈ ws ∧ w ∉ DICTIONARY ∧
      decodeWords ws = .error (.unknownWord ("Unknown word: " ++ w)) := by
  intro ws
  induction ws with
  | nil => rintro ⟨w, hw, -⟩; simp at hw
  | cons w ws2 ih =>
      intro h
      by_cases hw : w ∈ DICTIONARY
      · obtain ⟨x, hx, hxo⟩ := h
        have hx2 : x ∈ ws2 := by
          rcases List.mem_cons.mp hx with h1 | h1
          · exact absurd (h1 ▸ hw) hxo
          · exact h1
        obtain ⟨x2, hx2m, hx2o, herr⟩ := ih ⟨x, hx2, hxo⟩
        obtain ⟨i, hi, rfl⟩ := (mem_dict w).mp hw
        exact ⟨x2, by simp [hx2m], hx2o,
          by simp [decodeWords, dict_listIndex i hi, herr, except_bind_error]⟩
      · exact ⟨w, by simp, hw, by simp [decodeWords, listIndex_eq_none DICTIONARY w hw]⟩

/-! ## Lemmas about tokenization and the sliding-window search -/

theorem splitOnSpace_no_space : ∀ (w : List Char), ' ' ∉ w → splitOnSpace w = [w] := by
  intro w
  induction w with
  | nil => intro _; rfl
  | cons c cs ih =>
      intro h
      have hc : ¬c = ' ' := fun hc => h (by simp [hc])
      have hcs : ' ' ∉ cs := fun hm => h (by simp [hm])
      simp [splitOnSpace, hc, ih hcs]

theorem splitOnSpace_append : ∀ (w rest : List Char), ' ' ∉ w →
    splitOnSpace (w ++ ' ' :: rest) = w :: splitOnSpace rest := by
  intro w
  induction w with
  | nil => intro rest _; simp [splitOnSpace]
  | cons c cs ih =>
      intro rest h
      have hc : ¬c = ' ' := fun hc => h (by simp [hc])
      have hcs : ' ' ∉ cs := fun hm => h (by simp [hm])
      simp only [List.cons_append, splitOnSpace, hc, if_false]
      rw [List.append_eq, ih rest hcs]

theorem split_join : ∀ (ws : List (List Char)), (∀ w ∈ ws, w ≠ [] ∧ ' ' ∉ w) →
    (splitOnSpace (joinSpace ws)).filter (fun w => !w.isEmpty) = ws := by
  intro ws
  induction ws with
  | nil => intro _; rfl
  | cons w ws2 ih =>
      intro h
      obtain ⟨hne, hsp⟩ := h w (by simp)
      have hwE : w.isEmpty = false := by
        cases w with
        | nil => exact absurd rfl hne
        | cons a l => rfl
      cases ws2 with
      | nil =>
          show (splitOnSpace w).filter (fun w => !w.isEmpty) = [w]
          rw [splitOnSpace_no_space w hsp]
          simp [hwE]
      | cons x xs =>
          have hjoin : joinSpace (w :: x :: xs) = w ++ ' ' :: joinSpace (x :: xs) := rfl
          rw [hjoin, splitOnSpace_append w _ hsp, List.filter_cons]
          simp only [hwE, Bool.not_false, if_true]
          rw [ih (fun y hy => h y (by simp [hy]))]

theorem searchLoop_calls_le (p : Int → Bool) :
    ∀ os : List Int, (searchLoop p os).2 ≤ os.length := by
  intro os
  induction os with
  | nil => simp [searchLoop]
  | cons o os2 ih =>
      cases hp : p o with
      | true => simp [searchLoop, hp]
      | false =>
          simp only [searchLoop, hp, Bool.false_eq_true, if_false, List.length_cons]
          omega

theorem searchLoop_none_of (p : Int → Bool) :
    ∀ os : List Int, (∀ o ∈ os, p o = false) → searchLoop p os = (none, os.length) := by
  intro os
  induction os with
  | nil => intro _; rfl
  | cons o os2 ih =>
      intro h
      have hp : p o = false := h o (by simp)
      have hrest := ih (fun x hx => h x (by simp [hx]))
      simp [searchLoop, hp, hrest]

theorem searchLoop_range_some (p : Int → Bool) :
    ∀ (n : Nat) (s m : Int),
      (searchLoop p ((List.range n).map (fun (k : Nat) => s + (k : Int)))).1 = some m →
      p m = true ∧ s ≤ m ∧ m < s + n ∧ ∀ o, s ≤ o → o < m → p o = false := by
  intro n
  induction n with
  | zero => intro s m h; simp [searchLoop] at h
  | succ n ih =>
      intro s m h
      rw [List.range_succ_eq_map, List.map_cons, List.map_map] at h
      have hmap : List.map ((fun (k : Nat) => s + (k : Int)) ∘ Nat.succ) (List.range n)
          = List.map (fun (k : Nat) => (s + 1) + (k : Int)) (List.range n) := by
        apply List.map_congr_left
        intro k _
        simp only [Function.comp_apply]
        push_cast
        ring
      rw [hmap] at h
      cases hp : p (s + ((0 : Nat) : Int)) with
      | true =>
          simp only [searchLoop, hp, if_true] at h
          simp only [Option.some.injEq] at h
          subst h
          push_cast at hp ⊢
          refine ⟨hp, by omega, by omega, ?_⟩
          intro o h1 h2
          omega
      | false =>
          simp only [searchLoop, hp, Bool.false_eq_true, if_false] at h
          obtain ⟨hpm, hs, hlt, hnone⟩ := ih (s + 1) m h
          push_cast at hp
          refine ⟨hpm, by omega, by push_cast; omega, ?_⟩
          intro o h1 h2
          rcases eq_or_lt_of_le h1 with h1 | h1
          · subst h1
            simpa using hp
          · exact hnone o (by omega) h2

theorem searchLoop_range_none (p : Int → Bool) :
    ∀ (n : Nat) (s : Int),
      (searchLoop p ((List.range n).map (fun (k : Nat) => s + (k : Int)))).1 = none →
      ∀ o, s ≤ o → o < s + n → p o = false := by
  intro n
  induction n with
  | zero => intro s _ o h1 h2; omega
  | succ n ih =>
      intro s h o h1 h2
      rw [List.range_succ_eq_map, List.map_cons, List.map_map] at h
      have hmap : List.map ((fun (k : Nat) => s + (k : Int)) ∘ Nat.succ) (List.range n)
          = List.map (fun (k : Nat) => (s + 1) + (k : Int)) (List.range n) := by
        apply List.map_congr_left
        intro k _
        simp only [Function.comp_apply]
        push_cast
        ring
      rw [hmap] at h
      cases hp : p (s + ((0 : Nat) : Int)) with
      | true =>
          simp only [searchLoop, hp, if_true] at h
          simp at h
      | false =>
          simp only [searchLoop, hp, Bool.false_eq_true, if_false] at h
          push_cast at hp
          rcases eq_or_lt_of_le h1 with h1 | h1
          · subst h1
            simpa using hp
          · exact ih (s + 1) h o (by omega) (by push_cast at h2 ⊢; omega)

theorem mem_windowOffsets (ttl tol : Nat) (o : Int) :
    o ∈ windowOffsets ttl tol ↔ -(tol : Int) ≤ o ∧ o ≤ (ttl : Int) := by
  simp only [windowOffsets, List.mem_map, List.mem_range]
  constructor
  · rintro ⟨k, hk, rfl⟩
    constructor <;> omega
  · rintro ⟨h1, h2⟩
    refine ⟨(o + tol).toNat, by omega, by omega⟩

theorem windowOffsets_length (ttl tol : Nat) :
    (windowOffsets ttl tol).length = ttl + tol + 1 := by
  simp [windowOffsets]

theorem flatten_length_const : ∀ (c : Nat) (ls : List (List Char)),
    (∀ x ∈ ls, x.length = c) → ls.flatten.length = c * ls.length := by
  intro c ls
  induction ls with
  | nil => intro _; simp
  | cons x t ih =>
      intro h
      have hx : x.length = c := h x (by simp)
      have ht := ih (fun y hy => h y (by simp [hy]))
      simp only [List.flatten_cons, List.length_append, List.length_cons, hx, ht]
      ring

theorem macTag_length (mac : List Nat) (h : 12 ≤ mac.length) :
    (macTag mac).length = 90 := by
  have h12 : (mac.take 12).length = 12 := by
    rw [List.length_take]
    omega
  have hfl : (((mac.take 12).map (fun b => toBinW 8 b)).flatten).length = 96 := by
    rw [flatten_length_const 8]
    · rw [List.length_map, h12]
    · intro x hx
      simp only [List.mem_map] at hx
      obtain ⟨b, -, rfl⟩ := hx
      exact toBinW_length 8 b
  rw [macTag, List.length_take, hfl]
  omega

theorem macTag_bin (mac : List Nat) : ∀ c ∈ macTag mac, c = '0' ∨ c = '1' := by
  intro c hc
  rw [macTag] at hc
  have hc2 := List.mem_of_mem_take hc
  rw [List.mem_flatten] at hc2
  obtain ⟨l, hl, hcl⟩ := hc2
  simp only [List.mem_map] at hl
  obtain ⟨b, -, rfl⟩ := hl
  exact toBinW_bin 8 b c hcl

theorem string_mk_data (w : String) : String.mk w.data = w := rfl

theorem generate_ok (oracle : AuthMessage → List Nat) (k : Nat) (d : String)
    (h : Int) (code : List Char) (hgen : generate oracle k d h = .ok code) :
    k ≤ 1023 ∧ 12 ≤ (oracle ⟨toBinW 10 k, d, h⟩).length ∧
    ∃ ns : List Nat, ns.length = 10 ∧ (∀ n ∈ ns, n < 1024) ∧
      encode_bits_to_words (toBinW 10 k ++ macTag (oracle ⟨toBinW 10 k, d, h⟩))
        = .ok (ns.map wordFor) ∧
      decode_words_to_bits (ns.map wordFor)
        = .ok (toBinW 10 k ++ macTag (oracle ⟨toBinW 10 k, d, h⟩)) ∧
      code = joinSpace ((ns.map wordFor).map String.data) := by
  unfold generate at hgen
  by_cases hk : k > 1023
  · rw [if_pos hk] at hgen
    exact absurd hgen (by simp)
  rw [if_neg hk] at hgen
  by_cases hm : (oracle ⟨toBinW 10 k, d, h⟩).length < 12
  · rw [if_pos hm] at hgen
    exact absurd hgen (by simp)
  rw [if_neg hm] at hgen
  have hpack : pack k (macTag (oracle ⟨toBinW 10 k, d, h⟩))
      = .ok (toBinW 10 k ++ macTag (oracle ⟨toBinW 10 k, d, h⟩)) := by
    rw [pack, if_neg hk]
  rw [hpack] at hgen
  simp only [except_bind_ok] at hgen
  have hblen : (toBinW 10 k ++ macTag (oracle ⟨toBinW 10 k, d, h⟩)).length = 100 := by
    rw [List.length_append, toBinW_length, macTag_length _ (by omega)]
  have hbbin : ∀ c ∈ toBinW 10 k ++ macTag (oracle ⟨toBinW 10 k, d, h⟩),
      c = '0' ∨ c = '1' := by
    intro c hc
    rcases List.mem_append.mp hc with hc | hc
    · exact toBinW_bin 10 k c hc
    · exact macTag_bin _ c hc
  obtain ⟨ns, hns10, hnslt, henc, hdecB⟩ := round_trip_core _ hblen hbbin
  rw [henc] at hgen
  simp only [except_bind_ok, Except.ok.injEq] at hgen
  exact ⟨by omega, by omega, ns, hns10, hnslt, henc, hdecB, hgen.symm⟩

theorem unpack_append (k : Nat) (tag : List Char) (hk : k < 1024) :
    unpack (toBinW 10 k ++ tag) = .ok (k, tag) := by
  have hlen : (toBinW 10 k).length = 10 := toBinW_length 10 k
  have htake : (toBinW 10 k ++ tag).take 10 = toBinW 10 k := by
    rw [← hlen]
    exact List.take_left _ _
  have hdrop : (toBinW 10 k ++ tag).drop 10 = tag := by
    rw [← hlen]
    exact List.drop_left _ _
  have hne : toBinW 10 k ≠ [] := by
    intro hc
    rw [hc] at hlen
    simp at hlen
  have hp : parseBin (toBinW 10 k) = .ok k :=
    parseBin_ok _ k hne (by simpa using parse_toBinW 10 0 k (by norm_num; omega))
  rw [unpack, htake, hdrop, hp]
  rfl

theorem validate_on_generated (oracle : AuthMessage → List Nat)
    (ttl tol : Nat) (k : Nat) (dg : String) (hg : Int) (dc : String) (hc : Int)
    (code : List Char) (hgen : generate oracle k dg hg = .ok code) :
    validate oracle ttl tol code dc hc =
      (match searchLoop
          (probeMatch oracle (toBinW 10 k) dc hc
            (macTag (oracle ⟨toBinW 10 k, dg, hg⟩)))
          (windowOffsets ttl tol) with
       | (none, calls) => ⟨false, none, none, some .badSignature, calls⟩
       | (some m, calls) =>
          if m > (ttl : Int) then ⟨false, none, some m, some .expired, calls⟩
          else ⟨true, some k, some m, none, calls⟩) := by
  obtain ⟨hk, hm12, ns, hns10, hnslt, henc, hdecB, hcode⟩ :=
    generate_ok oracle k dg hg code hgen
  subst hcode
  have hwords : ∀ w ∈ (ns.map wordFor).map String.data, w ≠ [] ∧ ' ' ∉ w := by
    intro w hw
    simp only [List.map_map, List.mem_map, Function.comp_apply] at hw
    obtain ⟨n, -, rfl⟩ := hw
    exact ⟨wordFor_ne_nil n, wordFor_no_space n⟩
  have htok := split_join _ hwords
  have htoklen : ((ns.map wordFor).map String.data).length = 10 := by
    simp [hns10]
  have hmk : ((ns.map wordFor).map String.data).map String.mk = ns.map wordFor := by
    rw [List.map_map]
    have : ∀ w ∈ ns.map wordFor, (String.mk ∘ String.data) w = w := by
      intro w _
      exact string_mk_data w
    rw [List.map_congr_left this]
    simp
  have hunp := unpack_append k (macTag (oracle ⟨toBinW 10 k, dg, hg⟩)) (by omega)
  rw [validate, htok, hmk, hdecB]
  rw [if_neg (by rw [htoklen]; omega)]
  simp only [hunp]

/-! ## Claim theorems -/

/-- C3: for every string of exactly 100 binary digits, encoding to words and
decoding back is the identity:
`decode_words_to_bits (encode_bits_to_words bits) = bits`. -/
theorem claim_C3_roundtrip (bits : List Char) (hlen : bits.length = 100)
    (hbin : ∀ c ∈ bits, c = '0' ∨ c = '1') :
    (encode_bits_to_words bits).bind decode_words_to_bits = .ok bits := by
  obtain ⟨ns, -, -, henc, hdec⟩ := round_trip_core bits hlen hbin
  rw [henc]
  exact hdec

/-- Witness for C3 at the all-zero 100-bit string. -/
theorem claim_C3_roundtrip_witness :
    (encode_bits_to_words (List.replicate 100 '0')).bind decode_words_to_bits
      = .ok (List.replicate 100 '0') :=
  claim_C3_roundtrip (List.replicate 100 '0') (by decide) (by decide)

/-- C6: `encode_bits_to_words` fails with the format `ValueError` exactly when
a binary input's length is not 100 (and succeeds at length 100);
`decode_words_to_bits` fails with the format `ValueError` exactly when the
token count is not 10, fails with the unknown-word `ValueError` when the
count is 10 but some token is missing from `DICTIONARY`, succeeds when all
ten tokens are dictionary words; and the two error kinds are distinct. -/
theorem claim_C6_codec_errors :
    (∀ bits : List Char, (∀ c ∈ bits, c = '0' ∨ c = '1') →
      (bits.length ≠ 100 →
        encode_bits_to_words bits
          = .error (.formatError ("Expected 100 bits, got " ++ toString bits.length))) ∧
      (bits.length = 100 → ∃ ws, encode_bits_to_words bits = .ok ws)) ∧
    (∀ ws : List String,
      (ws.length ≠ 10 →
        decode_words_to_bits ws
          = .error (.formatError ("Expected 10 words, got " ++ toString ws.length))) ∧
      (ws.length = 10 → (∀ w ∈ ws, w ∈ DICTIONARY) →
        ∃ bs, decode_words_to_bits ws = .ok bs) ∧
      (ws.length = 10 → (∃ w ∈ ws, w ∉ DICTIONARY) →
        ∃ w, w ∈ ws ∧ w ∉ DICTIONARY ∧
          decode_words_to_bits ws
            = .error (.unknownWord ("Unknown word: " ++ w)))) ∧
    (∀ m1 m2 : String, PyErr.formatError m1 ≠ PyErr.unknownWord m2) := by
  refine ⟨?_, ?_, ?_⟩
  · intro bits hbin
    constructor
    · intro hne
      rw [encode_bits_to_words, if_pos hne]
    · intro hlen
      obtain ⟨ns, -, -, henc, -⟩ := round_trip_core bits hlen hbin
      exact ⟨ns.map wordFor, henc⟩
  · intro ws
    refine ⟨?_, ?_, ?_⟩
    · intro hne
      rw [decode_words_to_bits, if_pos hne]
    · intro hlen hmem
      obtain ⟨ns, -, -, hdec, -⟩ := decodeWords_ok_of_mem ws hmem
      refine ⟨(ns.map (toBinW 10)).flatten, ?_⟩
      rw [decode_words_to_bits, if_neg (by omega), hdec, except_bind_ok]
    · intro hlen habs
      obtain ⟨w, hw, hwo, herr⟩ := decodeWords_unknown ws habs
      refine ⟨w, hw, hwo, ?_⟩
      rw [decode_words_to_bits, if_neg (by omega), herr, except_bind_error]
  · intro m1 m2 h
    exact PyErr.noConfusion h

/-- Witness for C6: a 99-bit encode input, a 9-word decode input, and the
distinctness of the two error kinds, all concrete. -/
theorem claim_C6_codec_errors_witness :
    encode_bits_to_words (List.replicate 99 '0')
      = .error (.formatError ("Expected 100 bits, got "
          ++ toString (List.replicate 99 '0').length)) ∧
    decode_words_to_bits (List.replicate 9 "word0000")
      = .error (.formatError ("Expected 10 words, got "
          ++ toString (List.replicate 9 "word0000").length)) ∧
    PyErr.formatError "x" ≠ PyErr.unknownWord "x" :=
  ⟨(claim_C6_codec_errors.1 (List.replicate 99 '0') (by decide)).1 (by decide),
   (claim_C6_codec_errors.2.1 (List.replicate 9 "word0000")).1 (by decide),
   claim_C6_codec_errors.2.2 "x" "x"⟩

/-- C8: for every list of exactly 10 tokens all present in `DICTIONARY`,
decoding succeeds and re-encoding the decoded bits returns the same words. -/
theorem claim_C8_inverse_roundtrip (ws : List String) (hlen : ws.length = 10)
    (hmem : ∀ w ∈ ws, w ∈ DICTIONARY) :
    ∃ bs, decode_words_to_bits ws = .ok bs ∧ encode_bits_to_words bs = .ok ws := by
  obtain ⟨ns, hlt, hws, hdec, hnslen⟩ := decodeWords_ok_of_mem ws hmem
  have hns10 : ns.length = 10 := by omega
  have hblocks : ∀ y ∈ ns.map (toBinW 10), y.length = 10 := by
    intro y hy
    simp only [List.mem_map] at hy
    obtain ⟨n, -, rfl⟩ := hy
    exact toBinW_length 10 n
  have hbslen : ((ns.map (toBinW 10)).flatten).length = 100 := by
    rw [flatten_length_const 10 _ hblocks]
    simp [hns10]
  refine ⟨(ns.map (toBinW 10)).flatten, ?_, ?_⟩
  · rw [decode_words_to_bits, if_neg (by omega), hdec, except_bind_ok]
  · rw [encode_bits_to_words, if_neg (by omega)]
    have henc : encodeChunks ((ns.map (toBinW 10)).flatten)
        ((List.range 10).map (fun k => 10 * k)) = .ok (ns.map wordFor) := by
      apply encodeChunks_spec _ _ _ (by simp [hns10])
      intro j i n hj1 hj2
      rw [List.getElem?_map] at hj1
      have hj10 : j < 10 := by
        by_contra hcon
        rw [List.getElem?_eq_none (by simpa using hcon)] at hj1
        simp at hj1
      rw [List.getElem?_range hj10] at hj1
      simp only [Option.map_some', Option.some.injEq] at hj1
      have hnmem : n ∈ ns := by
        obtain ⟨hjlt, rfl⟩ := List.getElem?_eq_some.mp hj2
        exact List.getElem_mem hjlt
      refine ⟨hlt n hnmem, ?_⟩
      rw [← hj1]
      apply slice_flatten _ j _ hblocks
      rw [List.getElem?_map, hj2]
      rfl
    rw [henc, ← hws]

/-- Witness for C8 at ten copies of "word0003". -/
theorem claim_C8_inverse_roundtrip_witness :
    decode_words_to_bits (List.replicate 10 "word0003") = .ok bitsC8W ∧
    encode_bits_to_words bitsC8W = .ok (List.replicate 10 "word0003") := by
  obtain ⟨bs, h1, h2⟩ :=
    claim_C8_inverse_roundtrip (List.replicate 10 "word0003") (by decide) (by decide)
  have hd : decode_words_to_bits (List.replicate 10 "word0003") = .ok bitsC8W := by decide
  rw [h1] at hd
  have hbs : bs = bitsC8W := by
    injection hd
  subst hbs
  exact ⟨h1, h2⟩

/-- C2 counterexample: two runs of `validate_code` on the same code,
signature, configuration and clock, differing only in the contents of the
code-metadata store, return different verdicts — the verdict is not a
function of the submitted input, key and clock alone. -/
theorem claim_C2_counterexample :
    (validate_code envW dbEmptyW "c" "kc" 0).1 ≠ (validate_code envW dbActiveW "c" "kc" 0).1 ∧
    (validate_code envW dbEmptyW "c" "kc" 0).1 = .ok (false, some "Invalid code") ∧
    (validate_code envW dbActiveW "c" "kc" 0).1 = .ok (true, none) := by
  refine ⟨?_, by decide, by decide⟩
  decide

/-- C2 amended: `validate_code` additionally depends on the store, but only
through the record filed under the submitted code (and the store's read
health): two runs agreeing on that record and on read health return the same
verdict, whatever the rest of the store holds. -/
theorem claim_C2_amended_store_frame (env : AuthEnv) (db1 db2 : DbState)
    (code sigText : String) (now : Int)
    (hfail : db1.failRead = db2.failRead)
    (hrec : db1.records code = db2.records code) :
    validate_code env db1 code sigText now = validate_code env db2 code sigText now := by
  unfold validate_code get_code_metadata
  rw [hfail, hrec]

/-- Witness for the amended C2: the two concrete stores agree on code "c"
and the verdicts coincide. -/
theorem claim_C2_amended_store_frame_witness :
    validate_code envW dbActiveW "c" "kc" 0 = validate_code envW dbActive2W "c" "kc" 0 :=
  claim_C2_amended_store_frame envW dbActiveW dbActive2W "c" "kc" 0 (by decide) (by decide)

/-- C9 counterexample: with `USE_KMS` set but `KMS_KEY_ID` and `HMAC_SECRET`
both unset, `validate_code` on a fully valid stored record neither returns
`(True, None)` nor `(False, reason)` — it raises `AttributeError`
(`None.encode` in `verify_hmac_signature`). -/
theorem claim_C9_counterexample :
    (validate_code envCrashW dbActiveW "c" "kc" 0).1 = .error .attributeError := by
  decide

/-- C9 amended: `validate_code` returns `(True, None)` only if the metadata
record exists, is active, is unexpired at the current clock, stores exactly
the supplied signature, and the cryptographic verification (KMS when
configured, HMAC otherwise) passes; every other completed run returns
`(False, reason)` with a non-`None` reason; and the only escaping exception
is the `AttributeError` of the HMAC fallback with an unset secret. -/
theorem claim_C9_amended_acceptance (env : AuthEnv) (db : DbState)
    (code sigText : String) (now : Int) :
    ((validate_code env db code sigText now).1 = .ok (true, none) →
      db.failRead = false ∧ ∃ md, db.records code = some md ∧
        md.state = some "active" ∧ now ≤ md.expiresAt.getD 0 ∧
        md.signature = some sigText ∧
        (if env.useKms ∧ truthy env.kmsKeyId
          then env.kmsVerifyOk (env.kmsKeyId.getD "") code sigText = true
          else ∃ s, env.hmacSecret = some s ∧ env.hmacHex s code = sigText)) ∧
    (∀ (b : Bool) (r : Option String),
      (validate_code env db code sigText now).1 = .ok (b, r) →
      (b = true ∧ r = none) ∨ (b = false ∧ r ≠ none)) ∧
    ((validate_code env db code sigText now).1 = .error .attributeError →
      env.useKms = true ∧ truthy env.kmsKeyId = false ∧ env.hmacSecret = none) := by
  by_cases h1 : ¬env.useKms ∧ ¬truthy env.hmacSecret
  · simp only [validate_code, if_pos h1]
    try dsimp only
    refine ⟨by intro h; simp at h, ?_, by intro h; simp at h⟩
    intro b r h
    rw [Except.ok.injEq, Prod.mk.injEq] at h
    exact Or.inr ⟨h.1.symm, by rw [← h.2]; simp⟩
  · simp only [validate_code, if_neg h1, get_code_metadata]
    cases hfr : db.failRead with
    | true =>
        rw [if_pos rfl]
        try dsimp only
        refine ⟨by intro h; simp at h, ?_, by intro h; simp at h⟩
        intro b r h
        rw [Except.ok.injEq, Prod.mk.injEq] at h
        exact Or.inr ⟨h.1.symm, by rw [← h.2]; simp⟩
    | false =>
        rw [if_neg (by simp)]
        try dsimp only
        cases hrec : db.records code with
        | none =>
            try dsimp only
            refine ⟨by intro h; simp at h, ?_, by intro h; simp at h⟩
            intro b r h
            rw [Except.ok.injEq, Prod.mk.injEq] at h
            exact Or.inr ⟨h.1.symm, by rw [← h.2]; simp⟩
        | some md =>
            try dsimp only
            by_cases hst : md.state ≠ some "active"
            · rw [if_pos hst]
              try dsimp only
              refine ⟨by intro h; simp at h, ?_, by intro h; simp at h⟩
              intro b r h
              rw [Except.ok.injEq, Prod.mk.injEq] at h
              exact Or.inr ⟨h.1.symm, by rw [← h.2]; simp⟩
            · rw [if_neg hst]
              by_cases hexp : now > md.expiresAt.getD 0
              · rw [if_pos hexp]
                try dsimp only
                refine ⟨by intro h; simp at h, ?_, by intro h; simp at h⟩
                intro b r h
                rw [Except.ok.injEq, Prod.mk.injEq] at h
                exact Or.inr ⟨h.1.symm, by rw [← h.2]; simp⟩
              · rw [if_neg hexp]
                by_cases hsig : md.signature ≠ some sigText
                · rw [if_pos hsig]
                  try dsimp only
                  refine ⟨by intro h; simp at h, ?_, by intro h; simp at h⟩
                  intro b r h
                  rw [Except.ok.injEq, Prod.mk.injEq] at h
                  exact Or.inr ⟨h.1.symm, by rw [← h.2]; simp⟩
                · rw [if_neg hsig]
                  push_neg at hst hsig
                  by_cases hkms : env.useKms ∧ truthy env.kmsKeyId
                  · rw [if_pos hkms]
                    cases hv : env.kmsVerifyOk (env.kmsKeyId.getD "") code sigText with
                    | true =>
                        try dsimp only
                        refine ⟨?_, ?_, by intro h; simp at h⟩
                        · intro _
                          refine ⟨by simp [hfr], md, rfl, hst, by omega, hsig, ?_⟩
                          rw [if_pos hkms]
                        · intro b r h
                          rw [Except.ok.injEq, Prod.mk.injEq] at h
                          exact Or.inl ⟨h.1.symm, h.2.symm⟩
                    | false =>
                        try dsimp only
                        refine ⟨by intro h; simp at h, ?_, by intro h; simp at h⟩
                        intro b r h
                        rw [Except.ok.injEq, Prod.mk.injEq] at h
                        exact Or.inr ⟨h.1.symm, by rw [← h.2]; simp⟩
                  · rw [if_neg hkms]
                    cases hs : env.hmacSecret with
                    | none =>
                        simp only [verify_hmac_signature]
                        try dsimp only
                        refine ⟨by intro h; simp at h, by intro b r h; simp at h, ?_⟩
                        intro _
                        have huse : env.useKms = true := by
                          cases hu : env.useKms with
                          | false =>
                              exact absurd ⟨by simp [hu], by rw [hs]; simp [truthy]⟩ h1
                          | true => rfl
                        have hkk : truthy env.kmsKeyId = false := by
                          cases hk : truthy env.kmsKeyId with
                          | false => rfl
                          | true => exact absurd ⟨huse, hk⟩ hkms
                        exact ⟨huse, hkk, by trivial⟩
                    | some s =>
                        simp only [verify_hmac_signature]
                        by_cases hh : env.hmacHex s code = sigText
                        · rw [decide_eq_true hh]
                          try dsimp only
                          refine ⟨?_, ?_, by intro h; simp at h⟩
                          · intro _
                            refine ⟨by simp [hfr], md, rfl, hst, by omega, hsig, ?_⟩
                            rw [if_neg hkms]
                            exact ⟨s, rfl, hh⟩
                          · intro b r h
                            rw [Except.ok.injEq, Prod.mk.injEq] at h
                            exact Or.inl ⟨h.1.symm, h.2.symm⟩
                        · rw [decide_eq_false hh]
                          try dsimp only
                          refine ⟨by intro h; simp at h, ?_, by intro h; simp at h⟩
                          intro b r h
                          rw [Except.ok.injEq, Prod.mk.injEq] at h
                          exact Or.inr ⟨h.1.symm, by rw [← h.2]; simp⟩

/-- Witness for the amended C9 at the crashing configuration. -/
theorem claim_C9_amended_acceptance_witness :
    envCrashW.useKms = true ∧ truthy envCrashW.kmsKeyId = false ∧
    envCrashW.hmacSecret = none :=
  (claim_C9_amended_acceptance envCrashW dbActiveW "c" "kc" 0).2.2 (by decide)

/-- C10: `validate_code` performs only reads on the code-metadata store —
its operation trace consists of `get` operations, replaying the trace leaves
every store unchanged, and re-running the validation against the
post-validation store returns the same verdict and trace. -/
theorem claim_C10_validation_read_only (env : AuthEnv) (db : DbState)
    (code sigText : String) (now : Int) :
    (∀ op ∈ (validate_code env db code sigText now).2, ∃ c, op = DbOp.get c) ∧
    dbApply db (validate_code env db code sigText now).2 = db ∧
    validate_code env (dbApply db (validate_code env db code sigText now).2)
      code sigText now = validate_code env db code sigText now := by
  have htr : (validate_code env db code sigText now).2 = []
      ∨ (validate_code env db code sigText now).2 = [DbOp.get code] := by
    unfold validate_code get_code_metadata
    by_cases h1 : ¬env.useKms ∧ ¬truthy env.hmacSecret
    · left
      rw [if_pos h1]
    · right
      rw [if_neg h1]
      cases hfr : db.failRead with
      | true => rw [if_pos rfl]
      | false =>
          rw [if_neg (by simp)]
          try dsimp only
          cases hrec : db.records code with
          | none => rfl
          | some md =>
              try dsimp only
              by_cases hst : md.state ≠ some "active"
              · rw [if_pos hst]
              · rw [if_neg hst]
                by_cases hexp : now > md.expiresAt.getD 0
                · rw [if_pos hexp]
                · rw [if_neg hexp]
                  by_cases hsig : md.signature ≠ some sigText
                  · rw [if_pos hsig]
                  · rw [if_neg hsig]
                    by_cases hkms : env.useKms ∧ truthy env.kmsKeyId
                    · rw [if_pos hkms]
                      cases env.kmsVerifyOk (env.kmsKeyId.getD "") code sigText <;> rfl
                    · rw [if_neg hkms]
                      cases hs : env.hmacSecret with
                      | none => rfl
                      | some sec =>
                          simp only [verify_hmac_signature]
                          cases decide (env.hmacHex sec code = sigText) <;> rfl
  have happ : dbApply db (validate_code env db code sigText now).2 = db := by
    rcases htr with h | h <;> rw [h] <;> rfl
  refine ⟨?_, happ, by rw [happ]⟩
  intro op hop
  rcases htr with h | h
  · rw [h] at hop
    simp at hop
  · rw [h] at hop
    simp only [List.mem_singleton] at hop
    exact ⟨code, hop⟩

/-- Witness for C10 at a concrete store and validation. -/
theorem claim_C10_validation_read_only_witness :
    dbApply dbActiveW (validate_code envW dbActiveW "c" "kc" 0).2 = dbActiveW :=
  (claim_C10_validation_read_only envW dbActiveW "c" "kc" 0).2.1

/-- C7: when the KMS signing service fails during generation, the handler
returns the 500 "Failed to generate code" error response — no code string in
the body — and its store-operation trace is empty: nothing was persisted,
the failure happening before the `put_item` call. -/
theorem claim_C7_sign_failure_aborts (env : GenEnv) (db : DbState)
    (nonce : String) (ts : Int) (hkms : env.useKms = true)
    (hkey : truthy env.kmsKeyId = true)
    (hfail : env.kmsSign (generate_code env nonce ts) = .error ()) :
    generator_handler env db nonce ts = (⟨500, .err "Failed to generate code"⟩, []) := by
  have hcfg : ¬(¬env.useKms ∧ ¬truthy env.hmacSecret) := by simp [hkms]
  have hks : env.useKms ∧ truthy env.kmsKeyId := ⟨by simp [hkms], by simp [hkey]⟩
  simp only [generator_handler, if_neg hcfg, if_pos hks, sign_with_kms, hfail]

/-- Witness for C7 at the concrete failing-KMS environment. -/
theorem claim_C7_sign_failure_aborts_witness :
    generator_handler genEnvW dbEmptyW "n" 7 = (⟨500, .err "Failed to generate code"⟩, []) :=
  claim_C7_sign_failure_aborts genEnvW dbEmptyW "n" 7 (by decide) (by decide) (by decide)

/-- C4: every code returned by a successful generation is exactly 10
space-separated dictionary words which decode to exactly 100 bits — the
10-bit zero-padded binary key id followed by the 90-bit truncated mac tag
(spec-modelled CodeGenerator). -/
theorem claim_C4_code_shape (oracle : AuthMessage → List Nat) (k : Nat)
    (d : String) (h : Int) (code : List Char)
    (hgen : generate oracle k d h = .ok code) :
    k ≤ 1023 ∧
    ((splitOnSpace code).filter (fun w => !w.isEmpty)).length = 10 ∧
    (∀ t ∈ (splitOnSpace code).filter (fun w => !w.isEmpty),
      String.mk t ∈ DICTIONARY) ∧
    (toBinW 10 k).length = 10 ∧
    (macTag (oracle ⟨toBinW 10 k, d, h⟩)).length = 90 ∧
    decode_words_to_bits
        (((splitOnSpace code).filter (fun w => !w.isEmpty)).map String.mk)
      = .ok (toBinW 10 k ++ macTag (oracle ⟨toBinW 10 k, d, h⟩)) := by
  obtain ⟨hk, hm12, ns, hns10, hnslt, henc, hdecB, hcode⟩ :=
    generate_ok oracle k d h code hgen
  subst hcode
  have hwords : ∀ w ∈ (ns.map wordFor).map String.data, w ≠ [] ∧ ' ' ∉ w := by
    intro w hw
    simp only [List.map_map, List.mem_map, Function.comp_apply] at hw
    obtain ⟨n, -, rfl⟩ := hw
    exact ⟨wordFor_ne_nil n, wordFor_no_space n⟩
  have htok := split_join _ hwords
  rw [htok]
  have hmk : ((ns.map wordFor).map String.data).map String.mk = ns.map wordFor := by
    rw [List.map_map]
    have hpt : ∀ w ∈ ns.map wordFor, (String.mk ∘ String.data) w = w := by
      intro w _
      exact string_mk_data w
    rw [List.map_congr_left hpt]
    simp
  refine ⟨hk, by simp [hns10], ?_, toBinW_length 10 k, macTag_length _ hm12, ?_⟩
  · intro t ht
    simp only [List.map_map, List.mem_map, Function.comp_apply] at ht
    obtain ⟨n, hn, rfl⟩ := ht
    rw [string_mk_data]
    exact (mem_dict _).mpr ⟨n, hnslt n hn, rfl⟩
  · rw [hmk, hdecB]

/-- Witness for C4: the concrete code issued by `oracleW` for key id 5
decodes back to its key-id bits and mac tag. -/
theorem claim_C4_code_shape_witness :
    ((splitOnSpace codeW).filter (fun w => !w.isEmpty)).length = 10 ∧
    decode_words_to_bits
        (((splitOnSpace codeW).filter (fun w => !w.isEmpty)).map String.mk)
      = .ok (toBinW 10 5 ++ macTag (oracleW ⟨toBinW 10 5, "2024-01-01", 100⟩)) :=
  ⟨(claim_C4_code_shape oracleW 5 "2024-01-01" 100 codeW (by decide)).2.1,
   (claim_C4_code_shape oracleW 5 "2024-01-01" 100 codeW (by decide)).2.2.2.2.2⟩

/-- C1: validation is a bounded sliding-window search — a validation issues
at most `ttl + tol + 1` MAC-oracle calls; the probed window is exactly the
inclusive integer interval `[-tol, ttl]`; the search over the ascending
window stops at the first matching offset (no smaller offset in the window
matches); and when no offset matches, every offset of the window was probed
and found mismatching. -/
theorem claim_C1_sliding_window (oracle : AuthMessage → List Nat)
    (ttl tol : Nat) (text : List Char) (d : String) (h : Int) :
    (validate oracle ttl tol text d h).oracleCalls ≤ ttl + tol + 1 ∧
    (∀ o : Int, o ∈ windowOffsets ttl tol ↔ -(tol : Int) ≤ o ∧ o ≤ (ttl : Int)) ∧
    (∀ (p : Int → Bool) (m : Int),
      (searchLoop p (windowOffsets ttl tol)).1 = some m →
      p m = true ∧ -(tol : Int) ≤ m ∧ m ≤ (ttl : Int) ∧
        ∀ o : Int, -(tol : Int) ≤ o → o < m → p o = false) ∧
    (∀ p : Int → Bool,
      (searchLoop p (windowOffsets ttl tol)).1 = none →
      ∀ o : Int, -(tol : Int) ≤ o → o ≤ (ttl : Int) → p o = false) ∧
    (∀ p : Int → Bool, (searchLoop p (windowOffsets ttl tol)).2 ≤ ttl + tol + 1) := by
  have hcount : ∀ p : Int → Bool,
      (searchLoop p (windowOffsets ttl tol)).2 ≤ ttl + tol + 1 := by
    intro p
    have hle := searchLoop_calls_le p (windowOffsets ttl tol)
    rwa [windowOffsets_length] at hle
  have hwin : windowOffsets ttl tol
      = (List.range (ttl + tol + 1)).map (fun (k : Nat) => -(tol : Int) + (k : Int)) := rfl
  have hoc : (validate oracle ttl tol text d h).oracleCalls = 0 ∨
      ∃ p, (validate oracle ttl tol text d h).oracleCalls
        = (searchLoop p (windowOffsets ttl tol)).2 := by
    unfold validate
    by_cases hlen : ((splitOnSpace text).filter (fun w => !w.isEmpty)).length ≠ 10
    · left
      rw [if_pos hlen]
    · rw [if_neg hlen]
      cases hdec : decode_words_to_bits
          (((splitOnSpace text).filter (fun w => !w.isEmpty)).map String.mk) with
      | error e => left; rfl
      | ok bits =>
          try dsimp only
          cases hunp : unpack bits with
          | error e => left; rfl
          | ok kt =>
              try dsimp only
              obtain ⟨keyId, tag⟩ := kt
              try dsimp only
              right
              refine ⟨probeMatch oracle (toBinW 10 keyId) d h tag, ?_⟩
              cases hsl : searchLoop (probeMatch oracle (toBinW 10 keyId) d h tag)
                  (windowOffsets ttl tol) with
              | mk r1 r2 =>
                  try dsimp only
                  cases r1 with
                  | none => rfl
                  | some m =>
                      try dsimp only
                      by_cases hm : m > (ttl : Int)
                      · rw [if_pos hm]
                      · rw [if_neg hm]
  refine ⟨?_, mem_windowOffsets ttl tol, ?_, ?_, hcount⟩
  · rcases hoc with h0 | ⟨p, hp⟩
    · omega
    · rw [hp]
      exact hcount p
  · intro p m hsm
    rw [hwin] at hsm
    obtain ⟨hpm, hs, hlt, hnone⟩ :=
      searchLoop_range_some p (ttl + tol + 1) (-(tol : Int)) m hsm
    refine ⟨hpm, hs, ?_, hnone⟩
    push_cast at hlt
    omega
  · intro p hsn o h1 h2
    rw [hwin] at hsn
    exact searchLoop_range_none p (ttl + tol + 1) (-(tol : Int)) hsn o h1
      (by push_cast; omega)

/-- Witness for C1: concrete call-count bound and first-match extraction for
a window with `ttl = 2`, `tol = 1`. -/
theorem claim_C1_sliding_window_witness :
    (validate oracleW 2 1 codeW "2024-01-01" 100).oracleCalls ≤ 4 ∧
    (fun o : Int => decide (o = 1)) 1 = true :=
  ⟨(claim_C1_sliding_window oracleW 2 1 codeW "2024-01-01" 100).1,
   ((claim_C1_sliding_window oracleW 2 1 codeW "2024-01-01" 100).2.2.1
      (fun o : Int => decide (o = 1)) 1 (by decide)).1⟩

/-- C5 counterexample: a code generated at hour 100 with `ttl = 1`,
`tol = 1`, validated at hour 103 = T + ttl + tol + 1, is rejected — but with
reason `BadSignature`, not `Expired`: the offset window is capped at
`ttlHours`, so no offset reconstructs the generation hour and the `Expired`
branch cannot fire. -/
theorem claim_C5_counterexample :
    generate oracleW 5 "2024-01-01" 100 = .ok codeW ∧
    (validate oracleW 1 1 codeW "2024-01-01" 103).valid = false ∧
    (validate oracleW 1 1 codeW "2024-01-01" 103).reason = some VReason.badSignature ∧
    (validate oracleW 1 1 codeW "2024-01-01" 103).reason ≠ some VReason.expired := by
  refine ⟨by decide, by decide, by decide, by decide⟩

/-- C5 amended: a code generated at time T is rejected with `valid = false`
when validated `ttl + tol + 1` hours or more later (given a collision-free
oracle), but the reported reason is `BadSignature`, not `Expired`: the
search window stops at `ttlHours`, so a staler code matches no probed offset
at all. -/
theorem claim_C5_amended_stale_rejected (oracle : AuthMessage → List Nat)
    (ttl tol : Nat) (k : Nat) (dg : String) (hg : Int) (dc : String) (hc : Int)
    (code : List Char) (hgen : generate oracle k dg hg = .ok code)
    (hniq : ∀ m : AuthMessage,
      macTag (oracle m) = macTag (oracle ⟨toBinW 10 k, dg, hg⟩) →
      m = ⟨toBinW 10 k, dg, hg⟩)
    (hlate : hg + ttl + tol + 1 ≤ hc) :
    (validate oracle ttl tol code dc hc).valid = false ∧
    (validate oracle ttl tol code dc hc).reason = some VReason.badSignature := by
  rw [validate_on_generated oracle ttl tol k dg hg dc hc code hgen]
  have hall : ∀ o ∈ windowOffsets ttl tol,
      probeMatch oracle (toBinW 10 k) dc hc
        (macTag (oracle ⟨toBinW 10 k, dg, hg⟩)) o = false := by
    intro o ho
    obtain ⟨h1, h2⟩ := (mem_windowOffsets ttl tol o).mp ho
    unfold probeMatch
    apply decide_eq_false
    intro hEq
    have hmsg := hniq _ hEq
    have hh : hc - o = hg := by
      have := congrArg AuthMessage.hours hmsg
      simpa using this
    omega
  rw [searchLoop_none_of _ _ hall]
  exact ⟨rfl, rfl⟩

/-- Witness for the amended C5 at the concrete stale validation. -/
theorem claim_C5_amended_stale_rejected_witness :
    (validate oracleW 1 1 codeW "2024-01-01" 103).valid = false ∧
    (validate oracleW 1 1 codeW "2024-01-01" 103).reason = some VReason.badSignature := by
  apply claim_C5_amended_stale_rejected oracleW 1 1 5 "2024-01-01" 100 "2024-01-01" 103
    codeW (by decide) ?_ (by omega)
  intro m hEq
  by_cases hm : m = ⟨toBinW 10 5, "2024-01-01", 100⟩
  · exact hm
  · exfalso
    simp only [oracleW, if_neg hm, if_pos rfl] at hEq
    exact absurd hEq (by decide)

end LambdaFunctions
